import Mathlib

/-!
Verification of the range-median / best-partition core (`_rangemedian.cpp`).

The development shallowly embeds the C++ source:

* `computeWeightedMedian` embeds `compute_weighted_median` (values and weights
  are modelled by exact rationals, standing for the C `double`s; `std::sort`
  over `std::pair<double,double>` sorts lexicographically, embedded by
  `sortPairs`).
* `Cache`, `cacheIdx`, `cacheGet`, `cacheSet` embed the collision-overwrite
  cache; `size_t` arithmetic in `Cache::idx` is embedded faithfully, with an
  explicit reduction modulo `2 ^ 64` at every operation.  The `left = (size_t)-1`
  sentinel that marks an empty slot is embedded by `Option`: queries always
  have `left < 2 ^ 64 - 1`, so the sentinel never compares equal to a query.
* `muDist` embeds `RangeMedian_mu_dist` (the shared implementation of the
  public `mu` and `dist` methods): the bounds check, the cache lookup and the
  fill-on-miss.  Failure (`PyErr_SetString` + `-1`) is modelled by `none`;
  the cache is threaded explicitly.
* `findBestPartition` embeds `RangeMedian_find_best_partition`; the local
  arrays `B` (with `+infinity` modelled by `⊤ : WithTop ℚ`) and `p` are
  threaded through `innerFold`/`outerFold`, which mirror the two nested loops.
  The in-place writes `B[right+1-min_pos] = b` / `p[right-min_pos] = left-1`
  inside the inner loop are modelled by accumulating the current slot values
  and writing them back once the inner loop finishes; the loop body never
  reads the slots it is writing (it only reads `B[left-min_pos]` with
  `left ≤ right`), so this is the same computation.
-/

attribute [local semireducible] Rat.add Rat.mul Rat.inv Rat.sub

/-! ### The weighted median: `compute_weighted_median` -/

/-- Lexicographic order on `(value, weight)` pairs: the comparison performed by
`std::sort` on `std::pair<double,double>`. -/
def pairLeP (a b : ℚ × ℚ) : Prop := a.1 < b.1 ∨ (a.1 = b.1 ∧ a.2 ≤ b.2)

instance (a b : ℚ × ℚ) : Decidable (pairLeP a b) :=
  inferInstanceAs (Decidable (_ ∨ _))

/-- `std::sort(tmp.begin(), tmp.end())`: some sorted-by-`pairLeP` permutation of
the input (`std::sort` is not stable; any sorted permutation is a faithful
model, and the computed median and deviation depend only on the multiset). -/
def sortPairs (l : List (ℚ × ℚ)) : List (ℚ × ℚ) := l.insertionSort pairLeP

/-- The scan loop of `compute_weighted_median`: starting from the running
weight `wsum`, accumulate weights and stop at the first element where
`wsum >= midpoint`, returning the running weight there together with the
remaining suffix (whose head is the iterator position `it`); `none` when the
loop runs off the end (`it == tmp.end()`). -/
def breakScan (midpoint : ℚ) : ℚ → List (ℚ × ℚ) → Option (ℚ × List (ℚ × ℚ))
  | _, [] => none
  | wsum, p :: rest =>
      if midpoint ≤ wsum + p.2 then some (wsum + p.2, p :: rest)
      else breakScan midpoint (wsum + p.2) rest

/-- `midpoint`: half the total weight, accumulated by the first loop of
`compute_weighted_median`. -/
def midpointOf (tmp : List (ℚ × ℚ)) : ℚ := (tmp.foldl (fun s p => s + p.2) 0) / 2

/-- The `mu` selection of `compute_weighted_median` after the scan loop:
`it != end` gives the break element's value, averaged with its successor when
`wsum == midpoint` and a successor exists; `it == end` falls back to the last
element (`--it`). -/
def muOfSorted (tmp : List (ℚ × ℚ)) (midpoint : ℚ) : ℚ :=
  match breakScan midpoint 0 tmp with
  | some (wsum, p :: rest) =>
      if wsum = midpoint then
        match rest with
        | q :: _ => (q.1 + p.1) / 2
        | [] => p.1
      else p.1
  | some (_, []) => 0
  | none => (tmp.getLastD (0, 0)).1

/-- `compute_weighted_median(start, end, &mu, &dist)` over the `(value, weight)`
pairs of the range. -/
def computeWeightedMedian (l : List (ℚ × ℚ)) : ℚ × ℚ :=
  if l = [] then (0, 0)
  else
    let tmp := sortPairs l
    let mu := muOfSorted tmp (midpointOf tmp)
    (mu, (l.map (fun p => p.2 * |p.1 - mu|)).sum)

/-- The iterator range `y.begin() + left .. y.begin() + right + 1` handed to
`compute_weighted_median` by `RangeMedian_mu_dist`. -/
def ySlice (y : List (ℚ × ℚ)) (left right : ℕ) : List (ℚ × ℚ) :=
  (y.drop left).take (right + 1 - left)

/-- Direct (cache-bypassing) weighted median of `y[left..right]`. -/
def muD (y : List (ℚ × ℚ)) (left right : ℕ) : ℚ :=
  (computeWeightedMedian (ySlice y left right)).1

/-- Direct (cache-bypassing) weighted deviation of `y[left..right]`. -/
def distD (y : List (ℚ × ℚ)) (left right : ℕ) : ℚ :=
  (computeWeightedMedian (ySlice y left right)).2

/-! ### The cache -/

/-- `size_t` modulus: all arithmetic in `Cache::idx` is 64-bit unsigned. -/
def SIZET : ℕ := 2 ^ 64

/-- One populated cache slot (`Cache::Item` with a valid `left`). -/
structure CacheItem where
  left : ℕ
  right : ℕ
  mu : ℚ
  dist : ℚ
deriving DecidableEq

/-- The fixed-size slot table `std::vector<Item>`; `none` is the initial
sentinel state (`item.left == (size_t)-1`). -/
abbrev Cache := List (Option CacheItem)

/-- `Cache::idx(left, right)`: with `d = right - left` (in `size_t`, hence
wrapping), the pairing value `(d + left) * (d + left + 1) / 2 + d` computed in
`size_t` arithmetic, reduced modulo the table capacity. -/
def cacheIdx (cap left right : ℕ) : ℕ :=
  let d : ℕ := (((right : ℤ) - (left : ℤ)) % (SIZET : ℤ)).toNat
  let t : ℕ := ((d + left) % SIZET * ((d + left + 1) % SIZET)) % SIZET
  ((t / 2 + d) % SIZET) % cap

/-- The cache constructed by `RangeMedian_init`: capacity `37 * n + 401`, all
slots empty. -/
def initCache (y : List (ℚ × ℚ)) : Cache :=
  List.replicate (37 * y.length + 401) none

/-- `Cache::get`: a hit only when the slot's stored pair equals the query. -/
def cacheGet (c : Cache) (left right : ℕ) : Option (ℚ × ℚ) :=
  match c.getD (cacheIdx c.length left right) none with
  | some item =>
      if item.left = left ∧ item.right = right then some (item.mu, item.dist)
      else none
  | none => none

/-- `Cache::set`: unconditionally overwrite the slot. -/
def cacheSet (c : Cache) (left right : ℕ) (mu dist : ℚ) : Cache :=
  c.set (cacheIdx c.length left right) (some ⟨left, right, mu, dist⟩)

/-! ### `RangeMedian_mu_dist` -/

/-- `RangeMedian_mu_dist(op, left, right, &mu, &dist)`: bounds check (each
index separately in `[0, n)`), cache lookup, compute-and-store on miss.
`none` models the `-1` error return (`OutOfRange`); the (possibly updated)
cache is returned alongside. -/
def muDist (y : List (ℚ × ℚ)) (c : Cache) (left right : ℤ) : Option (ℚ × ℚ) × Cache :=
  if left < 0 ∨ right < 0 ∨ (y.length : ℤ) ≤ left ∨ (y.length : ℤ) ≤ right then
    (none, c)
  else
    match cacheGet c left.toNat right.toNat with
    | some (mu, dist) => (some (mu, dist), c)
    | none =>
        let md := computeWeightedMedian (ySlice y left.toNat right.toNat)
        (some md, cacheSet c left.toNat right.toNat md.1 md.2)

/-- The public `mu(left, right)` method (`RangeMedian_mu`). -/
def rmMu (y : List (ℚ × ℚ)) (c : Cache) (left right : ℤ) : Option ℚ × Cache :=
  ((muDist y c left right).1.map Prod.fst, (muDist y c left right).2)

/-- The public `dist(left, right)` method (`RangeMedian_dist`). -/
def rmDist (y : List (ℚ × ℚ)) (c : Cache) (left right : ℤ) : Option ℚ × Cache :=
  ((muDist y c left right).1.map Prod.snd, (muDist y c left right).2)

/-! ### `RangeMedian_find_best_partition` -/

/-- The candidate segment starts scanned by the inner loop for a given
`right`: `left` from `max(right+1-max_size, min_pos)` (inclusive) to
`max(right+1-min_size+1, min_pos)` (exclusive), in increasing order.
(All quantities are nonnegative here, so truncated subtraction agrees with
the signed arithmetic of the source.) -/
def candidates (min_size max_size min_pos right : ℕ) : List ℕ :=
  let aa := max (right + 1 - max_size) min_pos
  let bb := max (right + 2 - min_size) min_pos
  List.range' aa (bb - aa)

/-- The inner loop of the DP for one value of `right`: `bcur`/`pcur` hold the
current contents of `B[right+1-min_pos]` and `p[right-min_pos]`; each
candidate `left` is queried through the cache, its cost
`b = B[left-min_pos] + gamma + dist` formed, and accepted when
`b <= B[right+1-min_pos]` (non-strict).  A failing `mu_dist` aborts
(`none`), as in the source. -/
def innerFold (y : List (ℚ × ℚ)) (gamma : ℚ) (min_pos : ℕ) (B : List (WithTop ℚ))
    (right : ℕ) :
    WithTop ℚ × ℤ × Cache → List ℕ → Option (WithTop ℚ × ℤ) × Cache
  | (bcur, pcur, c), [] => (some (bcur, pcur), c)
  | (bcur, pcur, c), left :: rest =>
      match muDist y c (left : ℤ) (right : ℤ) with
      | (none, c') => (none, c')
      | (some (_, dist), c') =>
          let b : WithTop ℚ := B.getD (left - min_pos) ⊤ + (gamma : WithTop ℚ) +
            ((dist : ℚ) : WithTop ℚ)
          if b ≤ bcur then
            innerFold y gamma min_pos B right (b, (left : ℤ) - 1, c') rest
          else
            innerFold y gamma min_pos B right (bcur, pcur, c') rest

/-- The outer loop of the DP: for each `right` (increasing), initialize
`B[right+1-min_pos] = +inf`, run the inner loop, and store the resulting
slot values. -/
def outerFold (y : List (ℚ × ℚ)) (gamma : ℚ) (min_size max_size min_pos : ℕ) :
    List (WithTop ℚ) × List ℤ × Cache → List ℕ →
      Option (List (WithTop ℚ) × List ℤ) × Cache
  | (B, p, c), [] => (some (B, p), c)
  | (B, p, c), right :: rest =>
      match innerFold y gamma min_pos B right
          (⊤, p.getD (right - min_pos) 0, c) (candidates min_size max_size min_pos right) with
      | (none, c') => (none, c')
      | (some (bfin, pfin), c') =>
          outerFold y gamma min_size max_size min_pos
            (B.set (right + 1 - min_pos) bfin, p.set (right - min_pos) pfin, c') rest

/-- The DP proper (after the bounds check): `B` of size
`max_pos - min_pos + 1` zero-initialized with `B[0] = -gamma`, `p` of size
`max_pos - min_pos` zero-initialized, then the loop over
`right ∈ [min_pos, max_pos)`. -/
def findBestPartitionCore (y : List (ℚ × ℚ)) (c : Cache) (gamma : ℚ)
    (min_size max_size min_pos max_pos : ℕ) :
    Option (List (WithTop ℚ) × List ℤ) × Cache :=
  let B0 := (List.replicate (max_pos - min_pos + 1) ((0 : ℚ) : WithTop ℚ)).set 0
    ((-gamma : ℚ) : WithTop ℚ)
  let p0 : List ℤ := List.replicate (max_pos - min_pos) 0
  outerFold y gamma min_size max_size min_pos (B0, p0, c)
    (List.range' min_pos (max_pos - min_pos))

/-- `RangeMedian_find_best_partition(gamma, min_size, max_size, min_pos,
max_pos)`: validate `0 < min_size <= max_size && 0 <= min_pos <= max_pos <= n`
(failing with `InvalidBounds`, modelled by `none`, before any computation),
then run the DP and return the backpointer array `p`. -/
def findBestPartition (y : List (ℚ × ℚ)) (c : Cache) (gamma : ℚ)
    (min_size max_size min_pos max_pos : ℤ) : Option (List ℤ) × Cache :=
  if 0 < min_size ∧ min_size ≤ max_size ∧ 0 ≤ min_pos ∧ min_pos ≤ max_pos ∧
      max_pos ≤ (y.length : ℤ) then
    match findBestPartitionCore y c gamma min_size.toNat max_size.toNat
        min_pos.toNat max_pos.toNat with
    | (some (_, p), c') => (some p, c')
    | (none, c') => (none, c')
  else (none, c)

/-- The method table `RangeMedian_methods`: the operations the type exposes. -/
def rangeMedianMethods : List String := ["mu", "dist", "find_best_partition"]

/-! ### Reachable cache states -/

/-- One externally triggerable cache-mutating operation. -/
inductive RMOp where
  | query (left right : ℤ)
  | partition (gamma : ℚ) (min_size max_size min_pos max_pos : ℤ)

/-- The cache after performing one operation. -/
def applyOp (y : List (ℚ × ℚ)) (c : Cache) : RMOp → Cache
  | RMOp.query l r => (muDist y c l r).2
  | RMOp.partition g ms Ms mp Mp => (findBestPartition y c g ms Ms mp Mp).2

/-- The cache state reached from a fresh object by an access sequence. -/
def reach (y : List (ℚ × ℚ)) (ops : List RMOp) : Cache :=
  ops.foldl (applyOp y) (initCache y)

/-- A slot content is coherent: a populated slot stores exactly the direct
computation for its `(left, right)` pair. -/
def itemOK (y : List (ℚ × ℚ)) : Option CacheItem → Prop
  | none => True
  | some it => (it.mu, it.dist) = computeWeightedMedian (ySlice y it.left it.right)

instance (y : List (ℚ × ℚ)) (o : Option CacheItem) : Decidable (itemOK y o) :=
  match o with
  | none => isTrue trivial
  | some _ => inferInstanceAs (Decidable (_ = _))

/-- Cache transparency invariant: every populated slot is coherent. -/
def CacheInv (y : List (ℚ × ℚ)) (c : Cache) : Prop := ∀ o ∈ c, itemOK y o

instance (y : List (ℚ × ℚ)) (c : Cache) : Decidable (CacheInv y c) :=
  List.decidableBAll _ c

/-! ### Spec-side definitions (used only to state refinement claims) -/

/-- Written from the spec's words: scan the sorted sequence accumulating the
running weight; report the first element whose running weight reaches the
midpoint, together with that running weight and the value of the next sorted
element (if any); `none` when the scan completes without reaching the
midpoint. -/
def specScan (midpoint : ℚ) : ℚ → List (ℚ × ℚ) → Option (ℚ × ℚ × Option ℚ)
  | _, [] => none
  | acc, p :: rest =>
      if midpoint ≤ acc + p.2 then some (acc + p.2, p.1, rest.head?.map Prod.fst)
      else specScan midpoint (acc + p.2) rest

/-- Written from the spec's words: `mu` from the value-sorted pairs with
`midpoint = total_weight / 2`; if the first element reaching the midpoint
strictly exceeds it, its value; if the running weight exactly equals the
midpoint, the average with the next sorted value (or the value itself when
there is no next element); if the scan finishes without reaching the
midpoint, the last sorted element's value. -/
def specMu (l : List (ℚ × ℚ)) : ℚ :=
  let tmp := sortPairs l
  let midpoint := ((tmp.map Prod.snd).sum) / 2
  match specScan midpoint 0 tmp with
  | some (w, v, next) =>
      if midpoint < w then v
      else
        match next with
        | some v2 => (v + v2) / 2
        | none => v
  | none => (tmp.getLastD (0, 0)).1

/-! ### Definitions used to state the DP characterization -/

/-- Minimum of a list of extended costs (`⊤` for an empty list). -/
def minOver (l : List (WithTop ℚ)) : WithTop ℚ := l.foldr min ⊤

/-- The cost `b = B[left - min_pos] + gamma + dist(left, right)` of one
candidate segment `[left, right]`, expressed against a fixed array `B` and
the direct (cache-bypassing) deviation. -/
def candCost (y : List (ℚ × ℚ)) (gamma : ℚ) (min_pos : ℕ) (B : List (WithTop ℚ))
    (right left : ℕ) : WithTop ℚ :=
  B.getD (left - min_pos) ⊤ + (gamma : WithTop ℚ) + ((distD y left right : ℚ) : WithTop ℚ)

/-- The claimed behaviour of the DP at one `right`: the `B` slot for
`right + 1` holds the minimum candidate cost (`⊤` when no candidate exists),
and when candidates exist the backpointer `p[right - min_pos]` records
`ℓ - 1` for the largest cost-minimizing candidate start `ℓ` (the non-strict
`b ≤ B[right+1-min_pos]` acceptance lets the last, and hence largest,
equal-cost `left` win). -/
def innerRuleAt (y : List (ℚ × ℚ)) (gamma : ℚ) (min_size max_size min_pos : ℕ)
    (B : List (WithTop ℚ)) (p : List ℤ) (right : ℕ) : Prop :=
  B.getD (right + 1 - min_pos) ⊤ =
    minOver ((candidates min_size max_size min_pos right).map
      (candCost y gamma min_pos B right)) ∧
  (candidates min_size max_size min_pos right ≠ [] →
    ∃ ℓ ∈ candidates min_size max_size min_pos right,
      p.getD (right - min_pos) 0 = (ℓ : ℤ) - 1 ∧
      candCost y gamma min_pos B right ℓ = B.getD (right + 1 - min_pos) ⊤ ∧
      ∀ x ∈ candidates min_size max_size min_pos right,
        candCost y gamma min_pos B right x = B.getD (right + 1 - min_pos) ⊤ → x ≤ ℓ)

-- Concrete scenarios from the spec's testable properties, checked against the embedding.
example : computeWeightedMedian [(1,1),(2,1),(3,1)] = (2, 2) := by decide
example : computeWeightedMedian [(1,1),(2,3)] = (2, 1) := by decide
set_option maxRecDepth 10000 in
example : (muDist [(1,1),(2,1)] (initCache [(1,1),(2,1)]) 1 0).1 = some (0, 0) := by decide

/-! ### Cache and `mu_dist` helper lemmas -/

theorem cacheGet_spec {c : Cache} {l r : ℕ} {v : ℚ × ℚ} (h : cacheGet c l r = some v) :
    ∃ it : CacheItem, some it ∈ c ∧ it.left = l ∧ it.right = r ∧ v = (it.mu, it.dist) := by
  unfold cacheGet at h
  split at h
  · rename_i it hg
    split at h
    · rename_i hc
      refine ⟨it, ?_, hc.1, hc.2, (Option.some_inj.mp h).symm⟩
      by_cases hi : cacheIdx c.length l r < c.length
      · rw [List.getD_eq_getElem _ _ hi] at hg
        rw [← hg]
        exact List.getElem_mem hi
      · rw [List.getD_eq_default _ _ (Nat.le_of_not_lt hi)] at hg
        exact absurd hg (by simp)
    · exact absurd h (by simp)
  · exact absurd h (by simp)

theorem cacheSet_inv {y : List (ℚ × ℚ)} {c : Cache} {l r : ℕ} {mu dist : ℚ}
    (hinv : CacheInv y c) (hval : (mu, dist) = computeWeightedMedian (ySlice y l r)) :
    CacheInv y (cacheSet c l r mu dist) := by
  intro o ho
  rcases List.mem_or_eq_of_mem_set ho with h | h
  · exact hinv o h
  · subst h; exact hval

/-- `mu_dist` fails exactly on the source's bounds check, and leaves the cache
untouched when it fails. -/
theorem muDist_fail (y : List (ℚ × ℚ)) (c : Cache) (l r : ℤ) :
    ((muDist y c l r).1 = none ↔
      (l < 0 ∨ r < 0 ∨ (y.length : ℤ) ≤ l ∨ (y.length : ℤ) ≤ r)) ∧
    ((l < 0 ∨ r < 0 ∨ (y.length : ℤ) ≤ l ∨ (y.length : ℤ) ≤ r) → (muDist y c l r).2 = c) := by
  unfold muDist
  by_cases hb : l < 0 ∨ r < 0 ∨ (y.length : ℤ) ≤ l ∨ (y.length : ℤ) ≤ r
  · simp [hb]
  · simp only [if_neg hb]
    constructor
    · rcases hg : cacheGet c l.toNat r.toNat with _ | v
      · simpa [hg] using hb
      · simpa [hg] using hb
    · intro h; exact absurd h hb

/-- On an in-bounds query against a coherent cache, `mu_dist` returns exactly
the direct computation. -/
theorem muDist_val {y : List (ℚ × ℚ)} {c : Cache} {l r : ℤ} (hinv : CacheInv y c)
    (hb : ¬(l < 0 ∨ r < 0 ∨ (y.length : ℤ) ≤ l ∨ (y.length : ℤ) ≤ r)) :
    (muDist y c l r).1 = some (computeWeightedMedian (ySlice y l.toNat r.toNat)) := by
  unfold muDist
  simp only [if_neg hb]
  rcases hg : cacheGet c l.toNat r.toNat with _ | v
  · simp
  · obtain ⟨it, hmem, hl, hr, hv⟩ := cacheGet_spec hg
    have := hinv _ hmem
    simp only [itemOK] at this
    simp [hv, this, hl, hr]

/-- `mu_dist` preserves cache coherence (unconditionally). -/
theorem muDist_inv {y : List (ℚ × ℚ)} {c : Cache} (l r : ℤ) (hinv : CacheInv y c) :
    CacheInv y (muDist y c l r).2 := by
  unfold muDist
  by_cases hb : l < 0 ∨ r < 0 ∨ (y.length : ℤ) ≤ l ∨ (y.length : ℤ) ≤ r
  · simpa [hb] using hinv
  · simp only [if_neg hb]
    rcases hg : cacheGet c l.toNat r.toNat with _ | v
    · exact cacheSet_inv hinv rfl
    · simpa using hinv

/-- The fresh cache is coherent. -/
theorem initCache_inv (y : List (ℚ × ℚ)) : CacheInv y (initCache y) := by
  intro o ho
  have : o = none := List.eq_of_mem_replicate ho
  subst this; trivial

/-! ### `compute_weighted_median` helper lemmas -/

theorem foldl_add_snd (tmp : List (ℚ × ℚ)) (a : ℚ) :
    tmp.foldl (fun s p => s + p.2) a = a + (tmp.map Prod.snd).sum := by
  induction tmp generalizing a with
  | nil => simp
  | cons p rest ih => simp [List.foldl_cons, ih (a + p.2)]; ring

theorem midpointOf_eq (tmp : List (ℚ × ℚ)) :
    midpointOf tmp = (tmp.map Prod.snd).sum / 2 := by
  unfold midpointOf
  rw [foldl_add_snd, zero_add]

theorem breakScan_facts {midpoint w0 : ℚ} {tmp : List (ℚ × ℚ)} {w : ℚ}
    {suf : List (ℚ × ℚ)} (h : breakScan midpoint w0 tmp = some (w, suf)) :
    midpoint ≤ w ∧ suf ≠ [] ∧ ∀ a ∈ suf, a ∈ tmp := by
  induction tmp generalizing w0 with
  | nil => exact absurd h (by simp [breakScan])
  | cons p rest ih =>
      by_cases hc : midpoint ≤ w0 + p.2
      · rw [breakScan, if_pos hc] at h
        obtain ⟨hw, hs⟩ := Prod.mk.injEq .. ▸ Option.some_inj.mp h
        exact ⟨hw ▸ hc, hs ▸ (by simp), hs ▸ fun a ha => ha⟩
      · rw [breakScan, if_neg hc] at h
        obtain ⟨h1, h2, h3⟩ := ih h
        exact ⟨h1, h2, fun a ha => List.mem_cons_of_mem _ (h3 a ha)⟩

theorem specScan_eq (midpoint w0 : ℚ) (tmp : List (ℚ × ℚ)) :
    specScan midpoint w0 tmp =
      (breakScan midpoint w0 tmp).map
        (fun ws => (ws.1, (ws.2.headD (0, 0)).1, (ws.2.tail.head?).map Prod.fst)) := by
  induction tmp generalizing w0 with
  | nil => rfl
  | cons p rest ih =>
      by_cases hc : midpoint ≤ w0 + p.2
      · simp [specScan, breakScan, hc, List.head?_eq_getElem?]
      · simp [specScan, breakScan, hc, ih]

theorem muOfSorted_spec (tmp : List (ℚ × ℚ)) (mid : ℚ) :
    muOfSorted tmp mid =
      match specScan mid 0 tmp with
      | some (w, v, next) =>
          if mid < w then v
          else
            match next with
            | some v2 => (v + v2) / 2
            | none => v
      | none => (tmp.getLastD (0, 0)).1 := by
  rw [specScan_eq]
  rcases hb : breakScan mid 0 tmp with _ | ⟨w, suf⟩
  · simp [muOfSorted, hb]
  · obtain ⟨hle, hne, -⟩ := breakScan_facts hb
    rcases suf with _ | ⟨p, rest⟩
    · exact absurd rfl hne
    · simp only [muOfSorted, hb, Option.map_some']
      by_cases he : w = mid
      · have hnlt : ¬ mid < w := by rw [he]; exact lt_irrefl mid
        rcases rest with _ | ⟨q, rest2⟩
        · simp [he, hnlt]
        · simp only [if_pos he, if_neg hnlt, List.headD_cons, List.tail_cons,
            List.head?_cons, Option.map_some']
          ring
      · have hlt : mid < w := lt_of_le_of_ne hle (fun hh => he hh.symm)
        simp [he, hlt]

theorem computeWeightedMedian_fst {l : List (ℚ × ℚ)} (hl : l ≠ []) :
    (computeWeightedMedian l).1 = muOfSorted (sortPairs l) (midpointOf (sortPairs l)) := by
  unfold computeWeightedMedian
  rw [if_neg hl]

theorem computeWeightedMedian_snd {l : List (ℚ × ℚ)} (hl : l ≠ []) :
    (computeWeightedMedian l).2 =
      (l.map (fun p => p.2 * |p.1 - (computeWeightedMedian l).1|)).sum := by
  unfold computeWeightedMedian
  rw [if_neg hl]

theorem sortPairs_perm (l : List (ℚ × ℚ)) : List.Perm (sortPairs l) l :=
  List.perm_insertionSort pairLeP l

theorem sortPairs_ne_nil {l : List (ℚ × ℚ)} (hl : l ≠ []) : sortPairs l ≠ [] := by
  intro h
  exact hl (List.Perm.eq_nil ((sortPairs_perm l).symm.trans (h ▸ List.Perm.refl _)))

theorem muOfSorted_const {tmp : List (ℚ × ℚ)} {v : ℚ} (hne : tmp ≠ [])
    (hv : ∀ p ∈ tmp, p.1 = v) (mid : ℚ) : muOfSorted tmp mid = v := by
  rcases hb : breakScan mid 0 tmp with _ | ⟨w, suf⟩
  · have hmem : tmp.getLastD (0, 0) ∈ tmp := by
      rw [List.getLastD_eq_getLast? , List.getLast?_eq_getLast tmp hne]
      exact Option.getD_some .. ▸ List.getLast_mem hne
    simp only [muOfSorted, hb]
    exact hv _ hmem
  · obtain ⟨-, hne2, hsub⟩ := breakScan_facts hb
    rcases suf with _ | ⟨p, rest⟩
    · exact absurd rfl hne2
    · have hp : p.1 = v := hv _ (hsub _ (by simp))
      rcases rest with _ | ⟨q, rest2⟩
      · simp [muOfSorted, hb, hp]
      · have hq : q.1 = v := hv _ (hsub _ (by simp))
        simp only [muOfSorted, hb]
        by_cases he : w = mid
        · rw [if_pos he, hp, hq]; ring
        · rw [if_neg he, hp]

theorem computeWeightedMedian_const {l : List (ℚ × ℚ)} {v : ℚ} (hne : l ≠ [])
    (hv : ∀ p ∈ l, p.1 = v) : computeWeightedMedian l = (v, 0) := by
  have hsv : ∀ p ∈ sortPairs l, p.1 = v := fun p hp =>
    hv p ((sortPairs_perm l).mem_iff.mp hp)
  have hmu : (computeWeightedMedian l).1 = v := by
    rw [computeWeightedMedian_fst hne]
    exact muOfSorted_const (sortPairs_ne_nil hne) hsv _
  have hdist : (computeWeightedMedian l).2 = 0 := by
    rw [computeWeightedMedian_snd hne]
    apply List.sum_eq_zero
    intro x hx
    obtain ⟨p, hp, hpx⟩ := List.mem_map.mp hx
    rw [← hpx, hmu, hv p hp]
    simp
  calc computeWeightedMedian l = ((computeWeightedMedian l).1, (computeWeightedMedian l).2) := rfl
  _ = (v, 0) := by rw [hmu, hdist]

theorem list_sum_zero_of_nonneg {l : List ℚ} (h0 : ∀ x ∈ l, 0 ≤ x) (hs : l.sum = 0) :
    ∀ x ∈ l, x = 0 := by
  induction l with
  | nil => simp
  | cons a t ih =>
      have ha := h0 a (by simp)
      have ht : ∀ x ∈ t, 0 ≤ x := fun x hx => h0 x (by simp [hx])
      have hts : 0 ≤ t.sum := List.sum_nonneg ht
      simp only [List.sum_cons] at hs
      have ha0 : a = 0 := le_antisymm (by linarith) ha
      have hts0 : t.sum = 0 := by linarith
      intro x hx
      rcases List.mem_cons.mp hx with h | h
      · rw [h, ha0]
      · exact ih ht hts0 x h

theorem dist_nonneg_of_weights {l : List (ℚ × ℚ)} (hw : ∀ p ∈ l, 0 ≤ p.2) :
    0 ≤ (computeWeightedMedian l).2 := by
  by_cases hne : l = []
  · subst hne; simp [computeWeightedMedian]
  · rw [computeWeightedMedian_snd hne]
    apply List.sum_nonneg
    intro x hx
    obtain ⟨p, hp, hpx⟩ := List.mem_map.mp hx
    rw [← hpx]
    exact mul_nonneg (hw p hp) (abs_nonneg _)

theorem dist_zero_iff_const {l : List (ℚ × ℚ)} (hne : l ≠ []) (hw : ∀ p ∈ l, 0 < p.2) :
    (computeWeightedMedian l).2 = 0 ↔ ∀ p ∈ l, p.1 = (computeWeightedMedian l).1 := by
  constructor
  · intro h0 p hp
    rw [computeWeightedMedian_snd hne] at h0
    have hterm : p.2 * |p.1 - (computeWeightedMedian l).1| = 0 := by
      apply list_sum_zero_of_nonneg _ h0
      · exact List.mem_map.mpr ⟨p, hp, rfl⟩
      · intro x hx
        obtain ⟨q, hq, hqx⟩ := List.mem_map.mp hx
        rw [← hqx]
        exact mul_nonneg (le_of_lt (hw q hq)) (abs_nonneg _)
    have := (hw p hp).ne'
    have habs : |p.1 - (computeWeightedMedian l).1| = 0 := by
      rcases mul_eq_zero.mp hterm with h | h
      · exact absurd h this
      · exact h
    have := abs_eq_zero.mp habs
    linarith
  · intro hall
    have := computeWeightedMedian_const hne hall
    rw [this]

/-! ### Slice lemmas -/

theorem ySlice_length {y : List (ℚ × ℚ)} {left right : ℕ} (h1 : left ≤ right)
    (h2 : right < y.length) : (ySlice y left right).length = right + 1 - left := by
  unfold ySlice
  rw [List.length_take, List.length_drop]
  omega

theorem ySlice_ne_nil {y : List (ℚ × ℚ)} {left right : ℕ} (h1 : left ≤ right)
    (h2 : right < y.length) : ySlice y left right ≠ [] := by
  intro h
  have hl := ySlice_length h1 h2
  rw [h] at hl
  simp only [List.length_nil] at hl
  omega

/-! ### Claim C4: the `mu` scanning rule -/

/-- C4. For every non-empty range, the weighted median `mu` computed by the
code is determined by the spec's scanning rule over the value-sorted pairs:
the first element whose running weight reaches `midpoint = total_weight / 2`
gives `mu` (its value if the running weight strictly exceeds the midpoint; the
average of its value with the next sorted value — or its value alone when no
next element exists — if the running weight equals the midpoint exactly), and
a scan that finishes without reaching the midpoint falls back to the last
sorted element's value. -/
theorem mu_follows_scan_rule (y : List (ℚ × ℚ)) (left right : ℕ) (h1 : left ≤ right)
    (h2 : right < y.length) :
    muD y left right = specMu (ySlice y left right) := by
  have hne := ySlice_ne_nil h1 h2
  unfold muD specMu
  rw [computeWeightedMedian_fst hne, muOfSorted_spec, midpointOf_eq]

/-- Witness for `mu_follows_scan_rule` at the spec's concrete scenario
(`values [1,2,3]`, uniform weights, whole range; the median is `2`). -/
theorem mu_follows_scan_rule_witness :
    muD [(1,1),(2,1),(3,1)] 0 2 = specMu (ySlice [(1,1),(2,1),(3,1)] 0 2) ∧
    muD [(1,1),(2,1),(3,1)] 0 2 = 2 :=
  ⟨mu_follows_scan_rule [(1,1),(2,1),(3,1)] 0 2 (by decide) (by decide), by decide⟩

/-! ### Claim C7: sign and vanishing of `dist` -/

/-- C7. For every valid range with non-negative weights (the data model's
standing assumption), `dist(left,right) ≥ 0`; and when all weights in the
range are positive, `dist(left,right) = 0` iff all values in the range are
equal or the range is a single element. -/
theorem dist_nonneg_and_zero_iff (y : List (ℚ × ℚ)) (left right : ℕ)
    (h1 : left ≤ right) (h2 : right < y.length)
    (hw : ∀ p ∈ ySlice y left right, 0 ≤ p.2) :
    0 ≤ distD y left right ∧
    ((∀ p ∈ ySlice y left right, 0 < p.2) →
      (distD y left right = 0 ↔
        ((∀ p ∈ ySlice y left right, ∀ q ∈ ySlice y left right, p.1 = q.1) ∨
          left = right))) := by
  have hne := ySlice_ne_nil h1 h2
  refine ⟨dist_nonneg_of_weights hw, fun hpos => ?_⟩
  unfold distD
  rw [dist_zero_iff_const hne hpos]
  constructor
  · intro hall
    exact Or.inl (fun p hp q hq => by rw [hall p hp, hall q hq])
  · intro h
    have hv : ∃ v, ∀ p ∈ ySlice y left right, p.1 = v := by
      rcases h with h | h
      · obtain ⟨p0, hp0⟩ := List.exists_mem_of_ne_nil _ hne
        exact ⟨p0.1, fun p hp => h p hp p0 hp0⟩
      · subst h
        have hl1 : (ySlice y left left).length = 1 := by
          rw [ySlice_length le_rfl h2]; omega
        obtain ⟨a, ha⟩ := List.length_eq_one.mp hl1
        refine ⟨a.1, fun p hp => ?_⟩
        rw [ha] at hp
        simp only [List.mem_singleton] at hp
        rw [hp]
    obtain ⟨v, hv⟩ := hv
    have hc := computeWeightedMedian_const hne hv
    intro p hp
    rw [hc]
    exact hv p hp

/-- Witness for `dist_nonneg_and_zeroiff` at `values [1,2,3]`, uniform
weights: the deviation is `2 ≥ 0` and non-zero (values differ). -/
theorem dist_nonneg_and_zero_iff_witness :
    0 ≤ distD [(1,1),(2,1),(3,1)] 0 2 ∧
    ((∀ p ∈ ySlice [(1,1),(2,1),(3,1)] 0 2, 0 < p.2) →
      (distD [(1,1),(2,1),(3,1)] 0 2 = 0 ↔
        ((∀ p ∈ ySlice [(1,1),(2,1),(3,1)] 0 2,
            ∀ q ∈ ySlice [(1,1),(2,1),(3,1)] 0 2, p.1 = q.1) ∨ (0 : ℕ) = 2))) :=
  dist_nonneg_and_zero_iff [(1,1),(2,1),(3,1)] 0 2 (by decide) (by decide) (by decide)

/-! ### Claim C2: when `mu`/`dist` fail -/

set_option maxRecDepth 10000 in
/-- C2 counterexample. On a two-element sequence the query
`(left, right) = (1, 0)` has `left > right` with both indices individually in
`[0, n)`.  The claim says `mu`/`dist` must fail with `OutOfRange`; the code's
bounds check only tests each index against `[0, n)` separately, so both calls
succeed (returning `0`). -/
theorem mu_dist_reject_inverted_cex :
    (rmMu [(1,1),(2,1)] (initCache [(1,1),(2,1)]) 1 0).1 = some 0 ∧
    (rmDist [(1,1),(2,1)] (initCache [(1,1),(2,1)]) 1 0).1 = some 0 := by
  constructor <;> decide

/-- C2 (amended). The public `mu` and `dist` fail with `OutOfRange`,
without computing a result and leaving the cache unchanged, exactly when
`left < 0`, `right < 0`, `left ≥ n` or `right ≥ n`; a query with both indices
in `[0, n)` is never rejected, even when `left > right`. -/
theorem mu_dist_outofrange_iff (y : List (ℚ × ℚ)) (c : Cache) (left right : ℤ) :
    ((rmMu y c left right).1 = none ↔
      (left < 0 ∨ right < 0 ∨ (y.length : ℤ) ≤ left ∨ (y.length : ℤ) ≤ right)) ∧
    ((rmDist y c left right).1 = none ↔
      (left < 0 ∨ right < 0 ∨ (y.length : ℤ) ≤ left ∨ (y.length : ℤ) ≤ right)) ∧
    ((left < 0 ∨ right < 0 ∨ (y.length : ℤ) ≤ left ∨ (y.length : ℤ) ≤ right) →
      (rmMu y c left right).2 = c ∧ (rmDist y c left right).2 = c) := by
  obtain ⟨hiff, hcc⟩ := muDist_fail y c left right
  refine ⟨?_, ?_, fun h => ⟨?_, ?_⟩⟩
  · unfold rmMu
    rw [← hiff]
    exact Option.map_eq_none'
  · unfold rmDist
    rw [← hiff]
    exact Option.map_eq_none'
  · unfold rmMu
    exact hcc h
  · unfold rmDist
    exact hcc h

/-- Witness for `mu_dist_outofrange_iff`: `left = -1` is rejected on a
one-element sequence, and the rejection leaves the cache unchanged. -/
theorem mu_dist_outofrange_iff_witness :
    (rmMu [(1,1)] (initCache [(1,1)]) (-1) 0).1 = none ∧
    (rmMu [(1,1)] (initCache [(1,1)]) (-1) 0).2 = initCache [(1,1)] :=
  ⟨(mu_dist_outofrange_iff [(1,1)] (initCache [(1,1)]) (-1) 0).1.mpr (by decide),
    ((mu_dist_outofrange_iff [(1,1)] (initCache [(1,1)]) (-1) 0).2.2 (by decide)).1⟩

/-! ### Claim C10: the empty logical range `(l, l-1)` -/

/-- C10. For every `l` with `1 ≤ l ≤ n - 1`, the public calls
`mu(l, l-1)` and `dist(l, l-1)` pass the bounds check (both indices are
individually inside `[0, n)`), hand `compute_weighted_median` an empty
iterator range, and succeed returning `mu = 0` and `dist = 0` — for any
coherent cache state. -/
theorem empty_range_succeeds (y : List (ℚ × ℚ)) (c : Cache) (l : ℤ)
    (hinv : CacheInv y c) (h1 : 1 ≤ l) (h2 : l ≤ (y.length : ℤ) - 1) :
    (rmMu y c l (l - 1)).1 = some 0 ∧ (rmDist y c l (l - 1)).1 = some 0 := by
  have hb : ¬(l < 0 ∨ l - 1 < 0 ∨ (y.length : ℤ) ≤ l ∨ (y.length : ℤ) ≤ l - 1) := by
    omega
  have hval := muDist_val hinv hb
  have hslice : ySlice y l.toNat (l - 1).toNat = [] := by
    unfold ySlice
    have hz : (l - 1).toNat + 1 - l.toNat = 0 := by omega
    rw [hz, List.take_zero]
  rw [hslice] at hval
  have hc0 : computeWeightedMedian [] = (0, 0) := by decide
  rw [hc0] at hval
  unfold rmMu rmDist
  rw [hval]
  exact ⟨rfl, rfl⟩

/-- Witness for `empty_range_succeeds` at `n = 2`, `l = 1`, fresh cache. -/
theorem empty_range_succeeds_witness :
    (rmMu [(1,1),(2,1)] (initCache [(1,1),(2,1)]) 1 (1 - 1)).1 = some 0 ∧
    (rmDist [(1,1),(2,1)] (initCache [(1,1),(2,1)]) 1 (1 - 1)).1 = some 0 :=
  empty_range_succeeds [(1,1),(2,1)] (initCache [(1,1),(2,1)]) 1
    (initCache_inv [(1,1),(2,1)]) (by decide) (by decide)

/-! ### Claim C6: the exposed method table -/

/-- C6 counterexample. The method table `RangeMedian_methods` registers no
`precompute` operation: the claim that the public interface exposes a
`precompute(max_size, min_pos, max_pos)` fails. -/
theorem precompute_absent_cex : "precompute" ∉ rangeMedianMethods := by decide

/-- C6 (amended). The public interface exposes exactly `mu`, `dist` and
`find_best_partition`; no `precompute` operation exists. -/
theorem methods_exactly :
    rangeMedianMethods = ["mu", "dist", "find_best_partition"] ∧
    ∀ m ∈ rangeMedianMethods, m ≠ "precompute" := ⟨rfl, by decide⟩

/-! ### Claim C9: the cache slot index -/

/-- C9 counterexample. At `left = 0`, `right = 2^32` (a pair that is
in-range for a sequence of length `2^32 + 1`, whose cache capacity is
`C = 37·(2^32+1) + 401`), the slot computed by `Cache::idx` differs from the
mathematical pairing formula `((d+left)(d+left+1)/2 + d) mod C`: the product
`(d+left)(d+left+1) = 2^64 + 2^32` wraps to `2^32` in `size_t` before the
halving. -/
theorem cacheIdx_pairing_cex :
    cacheIdx (37 * (2 ^ 32 + 1) + 401) 0 (2 ^ 32) ≠
      ((2 ^ 32 - 0 + 0) * (2 ^ 32 - 0 + 0 + 1) / 2 + (2 ^ 32 - 0)) %
        (37 * (2 ^ 32 + 1) + 401) := by decide

/-- C9 (amended). For every pair `left ≤ right` whose pairing value does
not overflow 64-bit `size_t` arithmetic — in particular whenever
`right < 2^32`, which covers every sequence of length at most `2^32` — the
cache's slot index equals `((d + left)·(d + left + 1)/2 + d) mod C` with
`d = right - left`; and the capacity fixed at construction is `37·n + 401`.
(For `right ≥ 2^32` the `size_t` truncation of the product before the halving
makes the computed slot differ; see the counterexample.) -/
theorem cacheIdx_pairing (cap left right : ℕ) (h1 : left ≤ right)
    (h2 : right < 2 ^ 32) :
    cacheIdx cap left right =
      ((right - left + left) * (right - left + left + 1) / 2 + (right - left)) % cap ∧
    ∀ y : List (ℚ × ℚ), (initCache y).length = 37 * y.length + 401 := by
  constructor
  · have h2' : right < 4294967296 := by
      have : (2:ℕ) ^ 32 = 4294967296 := by norm_num
      omega
    have hd : (((right : ℤ) - (left : ℤ)) % ((18446744073709551616 : ℕ) : ℤ)).toNat =
        right - left := by omega
    have he : right - left + left = right := by omega
    have hSn : SIZET = 18446744073709551616 := by norm_num [SIZET]
    simp only [cacheIdx, hSn, hd, he]
    have hm1 : right % 18446744073709551616 = right := Nat.mod_eq_of_lt (by omega)
    have hm2 : (right + 1) % 18446744073709551616 = right + 1 := Nat.mod_eq_of_lt (by omega)
    have hb : right * (right + 1) < 18446744073709551616 := by
      calc right * (right + 1) ≤ 4294967295 * 4294967296 :=
            Nat.mul_le_mul (by omega) (by omega)
      _ < 18446744073709551616 := by norm_num
    have hm3 : right * (right + 1) % 18446744073709551616 = right * (right + 1) :=
      Nat.mod_eq_of_lt hb
    rw [hm1, hm2, hm3]
    have hm4 : (right * (right + 1) / 2 + (right - left)) % 18446744073709551616 =
        right * (right + 1) / 2 + (right - left) := by
      apply Nat.mod_eq_of_lt
      have hP := hb
      omega
    rw [hm4]
  · intro y
    unfold initCache
    exact List.length_replicate _ _

/-- Witness for `cacheIdx_pairing` at `cap = 475` (a two-element sequence),
`(left, right) = (1, 2)`: `d = 1`, pairing value `(1+1)(1+2)/2... ` computed
without overflow. -/
theorem cacheIdx_pairing_witness :
    cacheIdx 475 1 2 = ((2 - 1 + 1) * (2 - 1 + 1 + 1) / 2 + (2 - 1)) % 475 ∧
    ∀ y : List (ℚ × ℚ), (initCache y).length = 37 * y.length + 401 :=
  cacheIdx_pairing 475 1 2 (by decide) (by decide)

/-! ### List and `minOver` helpers -/

theorem getD_set_self {l : List (WithTop ℚ)} {i : ℕ} (h : i < l.length) (a : WithTop ℚ) :
    (l.set i a).getD i ⊤ = a := by
  simp [List.getD_eq_getElem?_getD, List.getElem?_set_self', h]

theorem getD_set_ne {l : List (WithTop ℚ)} {i j : ℕ} (h : i ≠ j) (a : WithTop ℚ) :
    (l.set i a).getD j ⊤ = l.getD j ⊤ := by
  simp [List.getD_eq_getElem?_getD, List.getElem?_set_ne h]

theorem getD_set_self_int {l : List ℤ} {i : ℕ} (h : i < l.length) (a : ℤ) :
    (l.set i a).getD i 0 = a := by
  simp [List.getD_eq_getElem?_getD, List.getElem?_set_self', h]

theorem getD_set_ne_int {l : List ℤ} {i j : ℕ} (h : i ≠ j) (a : ℤ) :
    (l.set i a).getD j 0 = l.getD j 0 := by
  simp [List.getD_eq_getElem?_getD, List.getElem?_set_ne h]

theorem minOver_nil : minOver [] = ⊤ := rfl

theorem minOver_cons (x : WithTop ℚ) (s : List (WithTop ℚ)) :
    minOver (x :: s) = min x (minOver s) := rfl

theorem minOver_le_of_mem {s : List (WithTop ℚ)} {x : WithTop ℚ} (h : x ∈ s) :
    minOver s ≤ x := by
  induction s with
  | nil => exact absurd h (by simp)
  | cons a t ih =>
      rw [minOver_cons]
      rcases List.mem_cons.mp h with h | h
      · rw [h]; exact min_le_left _ _
      · exact le_trans (min_le_right _ _) (ih h)

/-! ### Candidate-interval helpers -/

theorem candidates_mem {ms Ms mp right left : ℕ} (hms : 1 ≤ ms)
    (h : left ∈ candidates ms Ms mp right) : mp ≤ left ∧ left + ms ≤ right + 1 := by
  unfold candidates at h
  rw [List.mem_range'_1] at h
  omega

theorem candidates_single {ms mp Mp : ℕ} (h0 : 0 < ms) (hsz : ms = Mp - mp)
    (hlt : mp < Mp) : candidates ms ms mp (Mp - 1) = [mp] := by
  unfold candidates
  have ha : max (Mp - 1 + 1 - ms) mp = mp := by omega
  have hb : max (Mp - 1 + 2 - ms) mp = mp + 1 := by omega
  rw [ha, hb]
  show List.range' mp (mp + 1 - mp) = [mp]
  have hc : mp + 1 - mp = 1 := by omega
  rw [hc]
  exact List.range'_one

/-! ### Invariant preservation through the DP -/

theorem innerFold_inv {y : List (ℚ × ℚ)} {gamma : ℚ} {min_pos : ℕ}
    {B : List (WithTop ℚ)} {right : ℕ} (l : List ℕ) (bcur : WithTop ℚ) (pcur : ℤ)
    (c : Cache) (hinv : CacheInv y c) :
    CacheInv y (innerFold y gamma min_pos B right (bcur, pcur, c) l).2 := by
  induction l generalizing bcur pcur c with
  | nil => simpa [innerFold] using hinv
  | cons a t ih =>
      have hinv' : CacheInv y (muDist y c (a : ℤ) (right : ℤ)).2 :=
        muDist_inv _ _ hinv
      rcases hm : muDist y c (a : ℤ) (right : ℤ) with ⟨mv, c'⟩
      rw [hm] at hinv'
      rcases mv with _ | v
      · simpa [innerFold, hm] using hinv'
      · rcases v with ⟨mu, dv⟩
        simp only [innerFold, hm]
        split
        · exact ih _ _ _ hinv'
        · exact ih _ _ _ hinv'

theorem outerFold_inv {y : List (ℚ × ℚ)} {gamma : ℚ} {ms Ms mp : ℕ} (l : List ℕ)
    (B : List (WithTop ℚ)) (p : List ℤ) (c : Cache) (hinv : CacheInv y c) :
    CacheInv y (outerFold y gamma ms Ms mp (B, p, c) l).2 := by
  induction l generalizing B p c with
  | nil => simpa [outerFold] using hinv
  | cons r t ih =>
      have hinv' : CacheInv y
          (innerFold y gamma mp B r (⊤, p.getD (r - mp) 0, c) (candidates ms Ms mp r)).2 :=
        innerFold_inv _ _ _ _ hinv
      rcases hm : innerFold y gamma mp B r (⊤, p.getD (r - mp) 0, c)
          (candidates ms Ms mp r) with ⟨out, c'⟩
      rw [hm] at hinv'
      rcases out with _ | ⟨bfin, pfin⟩
      · simp only [outerFold, hm]
        exact hinv'
      · simp only [outerFold, hm]
        exact ih _ _ _ hinv'

theorem findBestPartition_inv {y : List (ℚ × ℚ)} (c : Cache) (gamma : ℚ)
    (a b d e : ℤ) (hinv : CacheInv y c) :
    CacheInv y (findBestPartition y c gamma a b d e).2 := by
  unfold findBestPartition
  split
  · have hko : CacheInv y (findBestPartitionCore y c gamma a.toNat b.toNat d.toNat e.toNat).2 := by
      unfold findBestPartitionCore
      exact outerFold_inv _ _ _ _ hinv
    rcases hm : findBestPartitionCore y c gamma a.toNat b.toNat d.toNat e.toNat with ⟨out, c'⟩
    rw [hm] at hko
    rcases out with _ | ⟨Bf, pf⟩
    · simpa [hm] using hko
    · simpa [hm] using hko
  · exact hinv

/-! ### The DP cannot fail once the bounds check has passed -/

theorem innerFold_some (y : List (ℚ × ℚ)) (gamma : ℚ) (min_pos : ℕ)
    (B : List (WithTop ℚ)) (right : ℕ) (l : List ℕ) (bcur : WithTop ℚ) (pcur : ℤ)
    (c : Cache) (hr : right < y.length) (hb : ∀ left ∈ l, left ≤ right) :
    ∃ out c', innerFold y gamma min_pos B right (bcur, pcur, c) l = (some out, c') := by
  induction l generalizing bcur pcur c with
  | nil => exact ⟨_, _, rfl⟩
  | cons a t ih =>
      have hbad : ¬((a : ℤ) < 0 ∨ (right : ℤ) < 0 ∨ (y.length : ℤ) ≤ (a : ℤ) ∨
          (y.length : ℤ) ≤ (right : ℤ)) := by
        have := hb a (by simp)
        omega
      rcases hm : muDist y c (a : ℤ) (right : ℤ) with ⟨mv, c'⟩
      rcases mv with _ | v
      · exfalso
        have hf := (muDist_fail y c (a : ℤ) (right : ℤ)).1
        rw [hm] at hf
        exact hbad (hf.mp rfl)
      · rcases v with ⟨mu, dv⟩
        simp only [innerFold, hm]
        split
        · exact ih _ _ _ (fun left hl => hb left (List.mem_cons_of_mem _ hl))
        · exact ih _ _ _ (fun left hl => hb left (List.mem_cons_of_mem _ hl))

theorem outerFold_some (y : List (ℚ × ℚ)) (gamma : ℚ) (ms Ms mp : ℕ) (hms : 1 ≤ ms)
    (l : List ℕ) (B : List (WithTop ℚ)) (p : List ℤ) (c : Cache)
    (hr : ∀ r ∈ l, r < y.length) :
    ∃ out c', outerFold y gamma ms Ms mp (B, p, c) l = (some out, c') := by
  induction l generalizing B p c with
  | nil => exact ⟨_, _, rfl⟩
  | cons r t ih =>
      obtain ⟨out, c', hm⟩ := innerFold_some y gamma mp B r (candidates ms Ms mp r) ⊤
        (p.getD (r - mp) 0) c (hr r (by simp)) (fun left hl => by
          have := candidates_mem hms hl
          omega)
      simp only [outerFold, hm]
      exact ih _ _ _ (fun r' hr' => hr r' (List.mem_cons_of_mem _ hr'))

/-! ### The inner loop: minimum cost, last minimizer wins -/

theorem innerFold_spec (y : List (ℚ × ℚ)) (gamma : ℚ) (min_pos : ℕ)
    (B : List (WithTop ℚ)) (right : ℕ) (l : List ℕ) (b0 : WithTop ℚ) (p0 : ℤ)
    (c : Cache) (hsort : l.Pairwise (· < ·))
    (hbound : ∀ left ∈ l, left ≤ right ∧ right < y.length) (hinv : CacheInv y c) :
    ∃ bout pout c',
      innerFold y gamma min_pos B right (b0, p0, c) l = (some (bout, pout), c') ∧
      CacheInv y c' ∧
      bout = min b0 (minOver (l.map (candCost y gamma min_pos B right))) ∧
      (minOver (l.map (candCost y gamma min_pos B right)) ≤ b0 ∧ l ≠ [] →
        ∃ ℓ ∈ l, pout = (ℓ : ℤ) - 1 ∧ candCost y gamma min_pos B right ℓ = bout ∧
          ∀ x ∈ l, candCost y gamma min_pos B right x = bout → x ≤ ℓ) ∧
      ((b0 < minOver (l.map (candCost y gamma min_pos B right)) ∨ l = []) → pout = p0) := by
  revert hsort hbound hinv
  induction l generalizing b0 p0 c with
  | nil =>
      intro hsort hbound hinv
      refine ⟨b0, p0, c, rfl, hinv, ?_, ?_, fun _ => rfl⟩
      · rw [List.map_nil, minOver_nil, min_eq_left le_top]
      · rintro ⟨-, hne⟩
        exact absurd rfl hne
  | cons a t ih =>
      intro hsort hbound hinv
      have hab := hbound a (by simp)
      have hbad : ¬((a : ℤ) < 0 ∨ (right : ℤ) < 0 ∨ (y.length : ℤ) ≤ (a : ℤ) ∨
          (y.length : ℤ) ≤ (right : ℤ)) := by omega
      have hval := muDist_val hinv hbad
      have hinv2 := muDist_inv (c := c) (a : ℤ) (right : ℤ) hinv
      simp only [Int.toNat_natCast] at hval
      rcases hm : muDist y c (a : ℤ) (right : ℤ) with ⟨mv, c1⟩
      rw [hm] at hval hinv2
      simp only at hval hinv2
      have hpair : computeWeightedMedian (ySlice y a right) =
          ((computeWeightedMedian (ySlice y a right)).1,
            (computeWeightedMedian (ySlice y a right)).2) := rfl
      rw [hpair] at hval
      subst hval
      simp only [innerFold, hm, List.map_cons, minOver_cons]
      rw [show B.getD (a - min_pos) ⊤ + (gamma : WithTop ℚ) +
          (((computeWeightedMedian (ySlice y a right)).2 : ℚ) : WithTop ℚ) =
          candCost y gamma min_pos B right a from rfl]
      by_cases hacc : candCost y gamma min_pos B right a ≤ b0
      · rw [if_pos hacc]
        obtain ⟨bout, pout, c', heq, hic, hbo, hcond1, hcond2⟩ :=
          ih _ ((a : ℤ) - 1) c1 (List.Pairwise.of_cons hsort)
            (fun left hl => hbound left (List.mem_cons_of_mem _ hl)) hinv2
        refine ⟨bout, pout, c', heq, hic, ?_, ?_, ?_⟩
        · rw [hbo, min_eq_right (le_trans (min_le_left _ _) hacc)]
        · rintro ⟨hMle, -⟩
          rcases eq_or_ne t [] with ht | ht
          · subst ht
            have hpout := hcond2 (Or.inr rfl)
            refine ⟨a, by simp, hpout, ?_, ?_⟩
            · rw [hbo, List.map_nil, minOver_nil, min_eq_left le_top]
            · intro x hx _
              rcases List.mem_cons.mp hx with h | h
              · exact le_of_eq h
              · exact absurd h (by simp)
          · rcases le_or_lt (minOver (t.map (candCost y gamma min_pos B right)))
                (candCost y gamma min_pos B right a) with hMT | hMT
            · obtain ⟨ℓ, hℓt, hp, hcost, hmax⟩ := hcond1 ⟨hMT, ht⟩
              refine ⟨ℓ, List.mem_cons_of_mem _ hℓt, hp, hcost, ?_⟩
              intro x hx hcx
              rcases List.mem_cons.mp hx with h | h
              · subst h
                exact le_of_lt ((List.pairwise_cons.mp hsort).1 ℓ hℓt)
              · exact hmax x h hcx
            · have hpout := hcond2 (Or.inl hMT)
              refine ⟨a, by simp, hpout, ?_, ?_⟩
              · rw [hbo, min_eq_left (le_of_lt hMT)]
              · intro x hx hcx
                rcases List.mem_cons.mp hx with h | h
                · exact le_of_eq h
                · exfalso
                  have h1 : minOver (t.map (candCost y gamma min_pos B right)) ≤
                      candCost y gamma min_pos B right x :=
                    minOver_le_of_mem (List.mem_map.mpr ⟨x, h, rfl⟩)
                  rw [hcx, hbo, min_eq_left (le_of_lt hMT)] at h1
                  exact absurd h1 (not_le.mpr hMT)
        · rintro (hlt | habs)
          · exfalso
            exact absurd (lt_of_lt_of_le hlt (min_le_left _ _)) (not_lt.mpr hacc)
          · exact absurd habs (by simp)
      · rw [if_neg hacc]
        have hCA := not_le.mp hacc
        obtain ⟨bout, pout, c', heq, hic, hbo, hcond1, hcond2⟩ :=
          ih b0 p0 c1 (List.Pairwise.of_cons hsort)
            (fun left hl => hbound left (List.mem_cons_of_mem _ hl)) hinv2
        refine ⟨bout, pout, c', heq, hic, ?_, ?_, ?_⟩
        · rw [hbo, ← min_assoc, min_eq_left (le_of_lt hCA)]
        · rintro ⟨hMle, -⟩
          have hMT : minOver (t.map (candCost y gamma min_pos B right)) ≤ b0 := by
            rcases le_total (minOver (t.map (candCost y gamma min_pos B right)))
                (candCost y gamma min_pos B right a) with h | h
            · rw [min_eq_right h] at hMle
              exact hMle
            · rw [min_eq_left h] at hMle
              exact absurd hMle (not_le.mpr hCA)
          have ht : t ≠ [] := by
            intro h
            subst h
            rw [List.map_nil, minOver_nil, top_le_iff] at hMT
            subst hMT
            exact not_top_lt hCA
          obtain ⟨ℓ, hℓt, hp, hcost, hmax⟩ := hcond1 ⟨hMT, ht⟩
          refine ⟨ℓ, List.mem_cons_of_mem _ hℓt, hp, hcost, ?_⟩
          intro x hx hcx
          rcases List.mem_cons.mp hx with h | h
          · exfalso
            subst h
            have hb0 : bout ≤ b0 := hbo ▸ min_le_left _ _
            rw [← hcx] at hb0
            exact absurd hb0 (not_le.mpr hCA)
          · exact hmax x h hcx
        · rintro (hlt | habs)
          · exact hcond2 (Or.inl (lt_of_lt_of_le hlt (min_le_right _ _)))
          · exact absurd habs (by simp)

/-! ### The outer loop: every processed slot satisfies the inner rule -/

theorem outerFold_spec (y : List (ℚ × ℚ)) (gamma : ℚ) (ms Ms mp Mp : ℕ)
    (hms : 1 ≤ ms) (hMpn : Mp ≤ y.length) :
    ∀ k r (B : List (WithTop ℚ)) (p : List ℤ) (c : Cache),
      r + k = Mp → mp ≤ r →
      B.length = Mp - mp + 1 → p.length = Mp - mp → CacheInv y c →
      ∃ Bf pf c',
        outerFold y gamma ms Ms mp (B, p, c) (List.range' r k) = (some (Bf, pf), c') ∧
        CacheInv y c' ∧ Bf.length = B.length ∧ pf.length = p.length ∧
        (∀ j, j ≤ r - mp → Bf.getD j ⊤ = B.getD j ⊤) ∧
        (∀ j, j < r - mp → pf.getD j 0 = p.getD j 0) ∧
        (∀ right, r ≤ right → right < Mp →
          Bf.getD (right + 1 - mp) ⊤ =
            minOver ((candidates ms Ms mp right).map (candCost y gamma mp Bf right)) ∧
          (candidates ms Ms mp right ≠ [] →
            ∃ ℓ ∈ candidates ms Ms mp right,
              pf.getD (right - mp) 0 = (ℓ : ℤ) - 1 ∧
              candCost y gamma mp Bf right ℓ = Bf.getD (right + 1 - mp) ⊤ ∧
              ∀ x ∈ candidates ms Ms mp right,
                candCost y gamma mp Bf right x = Bf.getD (right + 1 - mp) ⊤ → x ≤ ℓ)) := by
  intro k
  induction k with
  | zero =>
      intro r B p c hrk hmpr hBl hpl hinv
      refine ⟨B, p, c, rfl, hinv, rfl, rfl, fun j _ => rfl, fun j _ => rfl, ?_⟩
      intro right h1 h2
      exact absurd h2 (by omega)
  | succ n ih =>
      intro r B p c hrk hmpr hBl hpl hinv
      rw [List.range'_succ]
      have hcand_b : ∀ left ∈ candidates ms Ms mp r, left ≤ r ∧ r < y.length := by
        intro left hl
        have := candidates_mem hms hl
        omega
      obtain ⟨bout, pout, c1, hinner, hinv1, hbo, hcond1, hcond2⟩ :=
        innerFold_spec y gamma mp B r (candidates ms Ms mp r) ⊤ (p.getD (r - mp) 0) c
          (List.pairwise_lt_range' _ _) hcand_b hinv
      simp only [outerFold, hinner]
      obtain ⟨Bf, pf, c', houter, hinvf, hBlf, hplf, hstB, hstp, hchar⟩ :=
        ih (r + 1) (B.set (r + 1 - mp) bout) (p.set (r - mp) pout) c1
          (by omega) (by omega) (by simpa using hBl) (by simpa using hpl) hinv1
      refine ⟨Bf, pf, c', houter, hinvf, by simpa using hBlf, by simpa using hplf,
        ?_, ?_, ?_⟩
      · intro j hj
        rw [hstB j (by omega)]
        exact getD_set_ne (by omega) _
      · intro j hj
        rw [hstp j (by omega)]
        exact getD_set_ne_int (by omega) _
      · intro right h1 h2
        rcases eq_or_lt_of_le h1 with he | hlt
        · subst he
          have hidx : r + 1 - mp < B.length := by omega
          have hBfr : Bf.getD (r + 1 - mp) ⊤ = bout := by
            rw [hstB (r + 1 - mp) (by omega)]
            exact getD_set_self hidx _
          have hpfr : pf.getD (r - mp) 0 = pout := by
            rw [hstp (r - mp) (by omega)]
            exact getD_set_self_int (by omega) _
          have hcc : ∀ left ∈ candidates ms Ms mp r,
              candCost y gamma mp Bf r left = candCost y gamma mp B r left := by
            intro left hl
            have hle := (hcand_b left hl).1
            have hmple := (candidates_mem hms hl).1
            unfold candCost
            rw [hstB (left - mp) (by omega), getD_set_ne (by omega) _]
          have hmap : (candidates ms Ms mp r).map (candCost y gamma mp Bf r) =
              (candidates ms Ms mp r).map (candCost y gamma mp B r) :=
            List.map_congr_left hcc
          constructor
          · rw [hBfr, hbo, min_eq_right le_top, hmap]
          · intro hne
            obtain ⟨ℓ, hℓ, hp, hcost, hmax⟩ := hcond1 ⟨le_top, hne⟩
            refine ⟨ℓ, hℓ, by rw [hpfr]; exact hp, ?_, ?_⟩
            · rw [hcc ℓ hℓ, hBfr, hcost]
            · intro x hx hcx
              apply hmax x hx
              rw [← hcc x hx, hcx, hBfr]
        · exact hchar right (by omega) h2

/-! ### Linking the public entry point to the DP core -/

theorem findBestPartition_eq_core (y : List (ℚ × ℚ)) (c : Cache) (gamma : ℚ)
    (ms Ms mp Mp : ℕ) (hms : 0 < ms) (hmsMs : ms ≤ Ms) (hmpMp : mp ≤ Mp)
    (hMpn : Mp ≤ y.length) {Bf : List (WithTop ℚ)} {pf : List ℤ} {c' : Cache}
    (hcore : findBestPartitionCore y c gamma ms Ms mp Mp = (some (Bf, pf), c')) :
    findBestPartition y c gamma (ms : ℤ) (Ms : ℤ) (mp : ℤ) (Mp : ℤ) = (some pf, c') := by
  unfold findBestPartition
  rw [if_pos (by omega)]
  simp only [Int.toNat_natCast]
  rw [hcore]

/-! ### Claim C5: when `find_best_partition` fails -/

/-- C5. `find_best_partition(gamma, min_size, max_size, min_pos, max_pos)`
fails with `InvalidBounds`, performing no computation and leaving the cache
unchanged, exactly when the preconditions `0 < min_size ≤ max_size` and
`0 ≤ min_pos ≤ max_pos ≤ n` are violated; when they hold, the call always
succeeds. -/
theorem partition_invalid_bounds_iff (y : List (ℚ × ℚ)) (c : Cache) (gamma : ℚ)
    (min_size max_size min_pos max_pos : ℤ) :
    ((findBestPartition y c gamma min_size max_size min_pos max_pos).1 = none ↔
      ¬(0 < min_size ∧ min_size ≤ max_size ∧ 0 ≤ min_pos ∧ min_pos ≤ max_pos ∧
        max_pos ≤ (y.length : ℤ))) ∧
    (¬(0 < min_size ∧ min_size ≤ max_size ∧ 0 ≤ min_pos ∧ min_pos ≤ max_pos ∧
        max_pos ≤ (y.length : ℤ)) →
      (findBestPartition y c gamma min_size max_size min_pos max_pos).2 = c) := by
  by_cases hpre : 0 < min_size ∧ min_size ≤ max_size ∧ 0 ≤ min_pos ∧
      min_pos ≤ max_pos ∧ max_pos ≤ (y.length : ℤ)
  · have hsucc : ∃ pl c',
        findBestPartition y c gamma min_size max_size min_pos max_pos = (some pl, c') := by
      unfold findBestPartition
      rw [if_pos hpre]
      unfold findBestPartitionCore
      obtain ⟨out, c', hout⟩ := outerFold_some y gamma min_size.toNat max_size.toNat
        min_pos.toNat (by omega)
        (List.range' min_pos.toNat (max_pos.toNat - min_pos.toNat))
        ((List.replicate (max_pos.toNat - min_pos.toNat + 1) ((0 : ℚ) : WithTop ℚ)).set 0
          ((-gamma : ℚ) : WithTop ℚ))
        (List.replicate (max_pos.toNat - min_pos.toNat) (0 : ℤ)) c
        (by
          intro r hr
          rw [List.mem_range'_1] at hr
          omega)
      rcases out with ⟨Bf, pf⟩
      rw [hout]
      exact ⟨pf, c', rfl⟩
    obtain ⟨pl, c', hfb⟩ := hsucc
    rw [hfb]
    exact ⟨iff_of_false (by simp) (not_not.mpr hpre), fun h => absurd hpre h⟩
  · unfold findBestPartition
    rw [if_neg hpre]
    exact ⟨iff_of_true rfl hpre, fun _ => rfl⟩

/-- Witness for `partition_invalid_bounds_iff`: `min_size = 2 > max_size = 1`
is rejected on a one-element sequence, with the cache untouched. -/
theorem partition_invalid_bounds_iff_witness :
    (findBestPartition [(1,1)] (initCache [(1,1)]) 1 2 1 0 1).1 = none ∧
    (findBestPartition [(1,1)] (initCache [(1,1)]) 1 2 1 0 1).2 = initCache [(1,1)] :=
  ⟨(partition_invalid_bounds_iff [(1,1)] (initCache [(1,1)]) 1 2 1 0 1).1.mpr (by decide),
    (partition_invalid_bounds_iff [(1,1)] (initCache [(1,1)]) 1 2 1 0 1).2 (by decide)⟩

/-! ### Claim C3: the inner-loop acceptance and tie-break rule -/

/-- C3. In `find_best_partition`, for each `right` in `[min_pos, max_pos)`
the candidate starts iterate in increasing order over
`[max(right+1-max_size, min_pos), max(right+1-min_size+1, min_pos))`, each
candidate's cost is `B[left-min_pos] + gamma + dist(left, right)`, and
acceptance uses the non-strict `b ≤ B[right+1-min_pos]`; consequently, among
equal-cost candidates the largest `left` wins and the backpointer
`p[right-min_pos]` records the last (largest-`left`, shortest-final-segment)
minimizer, minus one.  `B` here is the internal cost array of the DP core,
whose backpointer array is exactly what the public entry point returns. -/
theorem partition_inner_loop_rule (y : List (ℚ × ℚ)) (c : Cache) (gamma : ℚ)
    (ms Ms mp Mp right : ℕ) (B : List (WithTop ℚ)) (p : List ℤ)
    (hms : 0 < ms) (hmsMs : ms ≤ Ms) (hmpMp : mp ≤ Mp) (hMpn : Mp ≤ y.length)
    (hinv : CacheInv y c)
    (hrun : (findBestPartitionCore y c gamma ms Ms mp Mp).1 = some (B, p))
    (hr1 : mp ≤ right) (hr2 : right < Mp) :
    innerRuleAt y gamma ms Ms mp B p right ∧
    (findBestPartition y c gamma (ms : ℤ) (Ms : ℤ) (mp : ℤ) (Mp : ℤ)).1 = some p := by
  obtain ⟨Bf, pf, c', houter, hinvf, hBlf, hplf, hstB, hstp, hchar⟩ :=
    outerFold_spec y gamma ms Ms mp Mp (by omega) hMpn (Mp - mp) mp
      ((List.replicate (Mp - mp + 1) ((0 : ℚ) : WithTop ℚ)).set 0 ((-gamma : ℚ) : WithTop ℚ))
      (List.replicate (Mp - mp) (0 : ℤ)) c (by omega) le_rfl (by simp) (by simp) hinv
  have hcore : findBestPartitionCore y c gamma ms Ms mp Mp = (some (Bf, pf), c') := by
    unfold findBestPartitionCore
    exact houter
  rw [hcore] at hrun
  simp only [Option.some_inj] at hrun
  obtain ⟨hB, hp⟩ := Prod.mk.injEq .. ▸ hrun
  subst hB
  subst hp
  constructor
  · exact ⟨(hchar right hr1 hr2).1, (hchar right hr1 hr2).2⟩
  · rw [findBestPartition_eq_core y c gamma ms Ms mp Mp hms hmsMs hmpMp hMpn hcore]

set_option maxRecDepth 100000 in
/-- Witness for `partition_inner_loop_rule` on `values [1, 2]`, uniform
weights, `gamma = 0`, `min_size = 1`, `max_size = 2`, whole range, at
`right = 1`: the DP core computes `B = [0, 0, 0]`, `p = [-1, 0]`. -/
theorem partition_inner_loop_rule_witness :
    innerRuleAt [(1,1),(2,1)] 0 1 2 0 [((0:ℚ) : WithTop ℚ), ((0:ℚ) : WithTop ℚ),
      ((0:ℚ) : WithTop ℚ)] [-1, 0] 1 ∧
    (findBestPartition [(1,1),(2,1)] (initCache [(1,1),(2,1)]) 0 1 2 0 2).1 =
      some [-1, 0] :=
  partition_inner_loop_rule [(1,1),(2,1)] (initCache [(1,1),(2,1)]) 0 1 2 0 2 1
    [((0:ℚ) : WithTop ℚ), ((0:ℚ) : WithTop ℚ), ((0:ℚ) : WithTop ℚ)] [-1, 0]
    (by decide) (by decide) (by decide) (by decide) (initCache_inv _)
    (by decide) (by decide) (by decide)

/-! ### Claim C8: degenerate single-segment partition -/

/-- C8. For every valid call with
`min_size = max_size = max_pos - min_pos > 0`, `find_best_partition` succeeds
and returns a backpointer array whose last entry `p[max_pos - 1 - min_pos]`
equals `min_pos - 1`: backward reconstruction from `max_pos - 1` immediately
reaches `min_pos - 1`, yielding exactly one segment spanning the whole
range. -/
theorem partition_single_segment (y : List (ℚ × ℚ)) (c : Cache) (gamma : ℚ)
    (ms mp Mp : ℕ) (hinv : CacheInv y c) (h0 : 0 < ms) (hsz : ms = Mp - mp)
    (hmp : mp ≤ Mp) (hMpn : Mp ≤ y.length) :
    ∃ p, (findBestPartition y c gamma (ms : ℤ) (ms : ℤ) (mp : ℤ) (Mp : ℤ)).1 = some p ∧
      p.length = Mp - mp ∧ p.getD (Mp - 1 - mp) 0 = (mp : ℤ) - 1 := by
  have hlt : mp < Mp := by omega
  obtain ⟨Bf, pf, c', houter, hinvf, hBlf, hplf, hstB, hstp, hchar⟩ :=
    outerFold_spec y gamma ms ms mp Mp (by omega) hMpn (Mp - mp) mp
      ((List.replicate (Mp - mp + 1) ((0 : ℚ) : WithTop ℚ)).set 0 ((-gamma : ℚ) : WithTop ℚ))
      (List.replicate (Mp - mp) (0 : ℤ)) c (by omega) le_rfl (by simp) (by simp) hinv
  have hcore : findBestPartitionCore y c gamma ms ms mp Mp = (some (Bf, pf), c') := by
    unfold findBestPartitionCore
    exact houter
  have hcands := candidates_single h0 hsz hlt
  obtain ⟨-, hex⟩ := hchar (Mp - 1) (by omega) (by omega)
  rw [hcands] at hex
  obtain ⟨ℓ, hℓ, hp, -, -⟩ := hex (by simp)
  have hℓ' : ℓ = mp := by simpa using hℓ
  rw [hℓ'] at hp
  refine ⟨pf, ?_, ?_, hp⟩
  · rw [findBestPartition_eq_core y c gamma ms ms mp Mp h0 le_rfl hmp hMpn hcore]
  · rw [hplf]
    simp

set_option maxRecDepth 100000 in
/-- Witness for `partition_single_segment` at `values [1, 2]`, uniform
weights, `gamma = 1/2`, `min_size = max_size = max_pos = 2`, `min_pos = 0`. -/
theorem partition_single_segment_witness :
    ∃ p, (findBestPartition [(1,1),(2,1)] (initCache [(1,1),(2,1)])
        (1/2) ((2:ℕ) : ℤ) ((2:ℕ) : ℤ) ((0:ℕ) : ℤ) ((2:ℕ) : ℤ)).1 = some p ∧
      p.length = 2 - 0 ∧ p.getD (2 - 1 - 0) 0 = ((0:ℕ) : ℤ) - 1 :=
  partition_single_segment [(1,1),(2,1)] (initCache [(1,1),(2,1)]) (1/2) 2 0 2
    (initCache_inv _) (by decide) (by decide) (by decide) (by decide)

/-! ### Claim C1: cache transparency -/

theorem reach_inv (y : List (ℚ × ℚ)) (ops : List RMOp) : CacheInv y (reach y ops) := by
  suffices h : ∀ (os : List RMOp) (c : Cache),
      CacheInv y c → CacheInv y (os.foldl (applyOp y) c) from
    h ops _ (initCache_inv y)
  intro os
  induction os with
  | nil => exact fun c h => h
  | cons o t ih =>
      intro c h
      rw [List.foldl_cons]
      apply ih
      cases o with
      | query l r => exact muDist_inv l r h
      | partition g a b d e => exact findBestPartition_inv c g a b d e h

/-- C1. Cache transparency: after any access sequence (any interleaving of
`mu`/`dist` queries and `find_best_partition` calls) starting from a fresh
object, every populated cache slot stores exactly
`compute_weighted_median` of its own `(left, right)` range, and any valid
query `(left, right)` with `0 ≤ left ≤ right < n` answered through the cache
returns exactly the direct, cache-bypassing computation. -/
theorem cache_transparent (y : List (ℚ × ℚ)) (ops : List RMOp) (l r : ℤ)
    (h0 : 0 ≤ l) (h1 : l ≤ r) (h2 : r < (y.length : ℤ)) :
    CacheInv y (reach y ops) ∧
    (muDist y (reach y ops) l r).1 =
      some (computeWeightedMedian (ySlice y l.toNat r.toNat)) := by
  refine ⟨reach_inv y ops, ?_⟩
  exact muDist_val (reach_inv y ops) (by omega)

set_option maxRecDepth 100000 in
/-- Witness for `cache_transparent`: sequence `[(1,1),(2,1)]`, one warming
query, then the query `(0, 1)`. -/
theorem cache_transparent_witness :
    CacheInv [(1,1),(2,1)] (reach [(1,1),(2,1)] [RMOp.query 0 0]) ∧
    (muDist [(1,1),(2,1)] (reach [(1,1),(2,1)] [RMOp.query 0 0]) 0 1).1 =
      some (computeWeightedMedian (ySlice [(1,1),(2,1)] (0:ℤ).toNat (1:ℤ).toNat)) :=
  cache_transparent [(1,1),(2,1)] [RMOp.query 0 0] 0 1 (by decide) (by decide) (by decide)
